import Mathlib

/-!
Verification development for the distribution-diff engine of the
update-creator-tool repository (Go).  The shallow embedding below follows
the revision in `part_005` (lowercase `readZip`, `addToRootNode`,
`nodeExists`, `findModifiedFiles`, `findNonExistentFiles`,
`modifyUpdateDescriptor`) together with the identical tree primitives in
`part_009` (`ReadZip`, `AddToRootNode`, `NodeExists`).

Conventions of the embedding:
* Go `map[string]*node` child maps become association lists with the Go
  map read/write semantics (`findEntry` / `setEntry`).
* Go `map[string]struct{}` sets become `List String` with idempotent
  insertion (`insertSet`); Go map iteration order is modelled by taking
  the iteration sequence as a list argument.
* A file's content bytes are represented by their hex md5 digest
  (`md5Hash` field), since the code only ever stores and compares the
  digest.  The digest is the md5 of whatever bytes `ioutil.ReadAll`
  produced, hence it is still defined when the read fails half-way.
* Logging-only parameters (`fileName`) are dropped.
-/

/-- Splits a list of characters at every occurrence of the separator
character, the embedding of Go `strings.Split(s, "/")` at character
level: `segsList "".data = [[]]`, and each slash opens a new segment. -/
def segsList : List Char → List (List Char)
  | [] => [[]]
  | c :: cs =>
    if c = '/' then [] :: segsList cs
    else
      match segsList cs with
      | [] => [[c]]
      | s :: rest => (c :: s) :: rest

/-- Go `strings.Split(s, "/")`. -/
def segs (s : String) : List String := (segsList s.data).map (fun l => ⟨l⟩)

/-- Joining a list of segments with slashes (Go `strings.Join(p, "/")`,
also `strings.SplitN(s, "/", 2)[1]` is `joinSegs` of the tail of the full
split). -/
def joinSegs : List String → String
  | [] => ""
  | [s] => s
  | s :: rest => s ++ "/" ++ joinSegs rest

/-- Go `filepath.ToSlash`: replace every backslash by a forward slash. -/
def toSlash (s : String) : String :=
  ⟨s.data.map (fun c => if c = '\\' then '/' else c)⟩

/-- Character-level test that the first list leads (is an initial run of)
the second, the embedding of Go `strings.HasPrefix` at character level. -/
def hasLeadChars : List Char → List Char → Bool
  | [], _ => true
  | _ :: _, [] => false
  | p :: ps, c :: cs => p == c && hasLeadChars ps cs

/-- Go `strings.HasPrefix(s, pre)`. -/
def strStarts (pre s : String) : Bool := hasLeadChars pre.data s.data

/-- Go `strings.TrimPrefix(s, pre)`. -/
def trimLead (pre s : String) : String :=
  if strStarts pre s then ⟨s.data.drop pre.data.length⟩ else s

/-- Go `strings.SplitN(s, "/", 2)[0]`: the part of `s` before its first
slash. -/
def headSeg (s : String) : String :=
  match segs s with
  | [] => s
  | x :: _ => x

/-- `util.GetRelativePath` (package `util` of the repository, not under
`src/`; its body is evidenced verbatim by the inlined computation in
`ReadZip`, `part_009` lines 810-819): if the entry name contains a slash,
everything after the first slash, otherwise the full name; backslashes
normalized to slashes afterwards. -/
def getRelativePath (name : String) : String :=
  toSlash
    (match segs name with
     | [] => name
     | [_] => name
     | _ :: rest => joinSegs rest)

/-- The tree vertex (`node` in `part_005`, `Node` in `part_009`): name,
isDir, md5Hash, relativePath (`relativeLocation` in `part_009`) and the
child map.  The Go `parent` back-pointer is dropped (it is never read by
the diff engine). -/
inductive Node where
  | mk (name : String) (isDir : Bool) (md5Hash : String)
      (relativePath : String) (childNodes : List (String × Node))

def Node.name : Node → String
  | .mk n _ _ _ _ => n

def Node.isDir : Node → Bool
  | .mk _ d _ _ _ => d

def Node.md5Hash : Node → String
  | .mk _ _ h _ _ => h

def Node.relativePath : Node → String
  | .mk _ _ _ r _ => r

def Node.childNodes : Node → List (String × Node)
  | .mk _ _ _ _ c => c

/-- Go map read `m[k]` (with the `ok` flag) on the child map. -/
def findEntry : List (String × Node) → String → Option Node
  | [], _ => none
  | kv :: rest, x => if kv.1 = x then some kv.2 else findEntry rest x

/-- Go map write `m[k] = v` on the child map. -/
def setEntry : List (String × Node) → String → Node → List (String × Node)
  | [], k, v => [(k, v)]
  | kv :: rest, k, v => if kv.1 = k then (k, v) :: rest else kv :: setEntry rest k v

def lookupChild (t : Node) (x : String) : Option Node := findEntry t.childNodes x

def setChild : Node → String → Node → Node
  | .mk n d h r c, k, v => .mk n d h r (setEntry c k v)

/-- `createNewNode` (`part_005` line 359, `part_009`): zero-valued node
with an initialized empty child map. -/
def createNewNode : Node := .mk "" false "" "" []

/-- The relative path given to a child named `seg` of `root` by
`addToRootNode`: `root.relativePath + "/" + seg`, except that an empty
parent path is dropped. -/
def childRel (root : Node) (seg : String) : String :=
  if root.relativePath = "" then seg else root.relativePath ++ "/" ++ seg

/-- `addToRootNode` (`part_005` lines 394-433, `AddToRootNode` in
`part_009` lines 833-874).  On the last path element the child is
unconditionally replaced by a freshly created node; on the way down,
missing intermediate directories are created (isDir true, empty digest).
Go mutates through pointers; here the updated child is written back into
the parent's map.  The Go code indexes `path[0]` and is never called with
an empty path (`strings.Split` is never empty); the `[]` case returns the
root unchanged. -/
def addToRootNode : Node → List String → Bool → String → Node
  | root, [], _, _ => root
  | root, [p], isDir, md5 =>
    setChild root p (Node.mk p isDir md5 (childRel root p) [])
  | root, p :: q :: rest, isDir, md5 =>
    match lookupChild root p with
    | some c => setChild root p (addToRootNode c (q :: rest) isDir md5)
    | none =>
      setChild root p
        (addToRootNode (Node.mk p true "" (childRel root p) []) (q :: rest) isDir md5)

/-- `nodeExists` (`part_005` lines 487-504, `NodeExists` in `part_009`):
descend segment by segment; at the final segment return
`(childNode.isDir == isDir, childNode)`; a missing segment returns
`(false, nil)`.  Go indexes `path[0]`, so the `[]` case (which would
panic) is mapped to not-found; callers always pass `strings.Split`
results, which are nonempty. -/
def nodeExists : Node → List String → Bool → Bool × Option Node
  | _, [], _ => (false, none)
  | root, [p], isDir =>
    match lookupChild root p with
    | some c => (c.isDir == isDir, some c)
    | none => (false, none)
  | root, p :: q :: rest, isDir =>
    match lookupChild root p with
    | some c => nodeExists c (q :: rest) isDir
    | none => (false, none)

/-- `pathExists` (`part_005` lines 481-483). -/
def pathExists (rootNode : Node) (relativePath : String) (isDir : Bool) :
    Bool × Option Node :=
  nodeExists rootNode (segs relativePath) isDir

/-- An archive entry as the diff engine consumes it.  `openError` models
`file.Open()` failing; `readError` models `ioutil.ReadAll` failing after
a successful open (in which case `data` holds the partial bytes read);
`md5Hash` is the hex md5 of the bytes actually obtained. -/
structure ZipEntry where
  name : String
  isDir : Bool
  openError : Bool
  readError : Bool
  md5Hash : String
deriving DecidableEq, Repr

def entryRel (e : ZipEntry) : String := getRelativePath e.name

def segsOf (e : ZipEntry) : List String := segs (entryRel e)

/-- One loop iteration of `readZip` after the error checks: hash the
bytes, compute the relative path and add the entry to the root node. -/
def insStep (root : Node) (e : ZipEntry) : Node :=
  addToRootNode root (segsOf e) e.isDir e.md5Hash

/-- `readZip` (`part_005` lines 366-391, `ReadZip` in `part_009` lines
779-830): iterate the archive entries; a failing `file.Open()` aborts
with the error.  Note that the Go code assigns the `ioutil.ReadAll`
error to `err` but never checks it, so `readError` is (faithfully)
ignored here.  Go returns the partial root next to the error; the caller
exits on error, so the error case drops it. -/
def readZip : List ZipEntry → Node → Except String Node
  | [], root => Except.ok root
  | e :: rest, root =>
    if e.openError then Except.error "error opening the zip entry"
    else readZip rest (insStep root e)

/-- The tree produced by a successful `readZip` run over `entries`,
starting from `createNewNode` as in `generateUpdate`. -/
def buildTree (entries : List ZipEntry) : Node :=
  entries.foldl insStep createNewNode

/-- Go `map[string]struct{}` insertion `s[x] = struct{}{}` on a
list-as-set: a no-op when the element is already present. -/
def insertSet (s : List String) (x : String) : List String :=
  if x ∈ s then s else s ++ [x]

/-- `findModifiedFiles` (`part_005` lines 445-460): if the relative path
exists in the other tree as a file and the digests mismatch, record the
node's relative path as modified. -/
def findModifiedFiles (root : Node) (md5Hash relativePath : String)
    (modifiedFiles : List String) : List String :=
  match pathExists root relativePath false with
  | (true, some n) =>
    if n.md5Hash ≠ md5Hash then insertSet modifiedFiles n.relativePath
    else modifiedFiles
  | _ => modifiedFiles

/-- `findNonExistentFiles` (`part_005` lines 463-477): if the relative
path does not exist in the other tree as a file, record it (the Go
parameter is called `matches`, a reserved word here). -/
def findNonExistentFiles (root : Node) (relativePath : String)
    (matched : List String) : List String :=
  if (pathExists root relativePath false).1 then matched
  else insertSet matched relativePath

/-- The guard of both classification loops in `generateUpdate`
(`part_005` lines 192 and 229): only entries with a nonempty relative
path that are not directories are classified. -/
def procEntry (e : ZipEntry) : Bool := entryRel e != "" && !e.isDir

/-- The first classification loop of `generateUpdate` (`part_005` lines
165-197): walk the previous distribution's entries against the updated
distribution's tree, accumulating the modified and removed sets. -/
def findModifiedAndRemoved (updTree : Node) (prevEntries : List ZipEntry) :
    List String × List String :=
  prevEntries.foldl
    (fun acc e =>
      if procEntry e then
        (findModifiedFiles updTree e.md5Hash (entryRel e) acc.1,
         findNonExistentFiles updTree (entryRel e) acc.2)
      else acc)
    ([], [])

/-- The second classification loop of `generateUpdate` (`part_005` lines
215-235): walk the updated distribution's entries against the previous
distribution's tree, accumulating the added set. -/
def findAddedFiles (prevTree : Node) (updEntries : List ZipEntry) : List String :=
  updEntries.foldl
    (fun acc e =>
      if procEntry e then findNonExistentFiles prevTree (entryRel e) acc
      else acc)
    []

/-- The whole diff classification of `generateUpdate`: build the updated
tree, run pass one over the previous entries, build the previous tree,
run pass two over the updated entries.  Result:
`(modifiedFiles, removedFiles, addedFiles)`. -/
def classifyDiff (updEntries prevEntries : List ZipEntry) :
    List String × List String × List String :=
  let updTree := buildTree updEntries
  let prevTree := buildTree prevEntries
  let mr := findModifiedAndRemoved updTree prevEntries
  (mr.1, mr.2, findAddedFiles prevTree updEntries)

/-- `File_changes` of `util.UpdateDescriptor` (field accesses in
`part_005` lines 514-553). -/
structure FileChanges where
  added_files : List String
  removed_files : List String
  modified_files : List String
deriving DecidableEq, Repr

/-- The subset of `util.UpdateDescriptor` the descriptor mutator touches
(plus the two fields read by `getUpdateName`). -/
structure UpdateDescriptor where
  update_number : String
  platform_version : String
  file_changes : FileChanges
deriving DecidableEq, Repr

/-- The feature root constant of `modifyUpdateDescriptor` (`part_005`
line 510). -/
def featureRoot : String := "wso2/lib/features/"

/-- The feature name extracted from a removed path under the feature
root (`part_005` line 530):
`strings.SplitN(strings.TrimPrefix(removedFile, featurePrefix), "/", 2)[0]`. -/
def featureName (removedFile : String) : String :=
  headSeg (trimLead featureRoot removedFile)

/-- The removed-files loop of `modifyUpdateDescriptor` (`part_005` lines
522-547), with the `removedFeatureNames` set and the appended output
threaded explicitly: a path under the feature root contributes
`featureRoot ++ featureName` once per feature; other paths are appended
unchanged. -/
def processRemoved : List String → List String → List String →
    List String × List String
  | [], seen, out => (seen, out)
  | rf :: rest, seen, out =>
    if strStarts featureRoot rf then
      let nm := featureName rf
      if nm ∈ seen then processRemoved rest seen out
      else processRemoved rest (seen ++ [nm]) (out ++ [featureRoot ++ nm])
    else processRemoved rest seen (out ++ [rf])

/-- `modifyUpdateDescriptor` (`part_005` lines 508-557,
`alterUpdateDescriptor` in `cmd/generate.go` lines 756-807 is the same
logic): append the modified set, the feature-collapsed removed set and
the added set to the descriptor's file-change lists. -/
def modifyUpdateDescriptor (modifiedFiles removedFiles addedFiles : List String)
    (ud : UpdateDescriptor) : UpdateDescriptor :=
  let fc := ud.file_changes
  ⟨ud.update_number, ud.platform_version,
   ⟨fc.added_files ++ addedFiles,
    fc.removed_files ++ (processRemoved removedFiles [] []).2,
    fc.modified_files ++ modifiedFiles⟩⟩

/-! ## Basic lemmas about the child map and the tree walk -/

/-- Reading the node reachable from `t` by following child-map keys along
a segment path (used only in statements; `nodeExists` is characterized
against it below). -/
def getNodeAt : Node → List String → Option Node
  | t, [] => some t
  | t, x :: rest =>
    match lookupChild t x with
    | some c => getNodeAt c rest
    | none => none

/-- Segment-level test that the first path is an initial run of the
second. -/
def leadSegs : List String → List String → Bool
  | [], _ => true
  | _ :: _, [] => false
  | a :: as, b :: bs => a == b && leadSegs as bs

theorem leadSegs_refl (p : List String) : leadSegs p p = true := by
  induction p with
  | nil => rfl
  | cons a as ih => simp [leadSegs, ih]

theorem segsList_ne_nil (l : List Char) : segsList l ≠ [] := by
  induction l with
  | nil => simp [segsList]
  | cons c cs ih =>
    by_cases h : c = '/'
    · simp [segsList, h]
    · cases hs : segsList cs with
      | nil => exact absurd hs ih
      | cons s rest => simp [segsList, h, hs]

theorem segs_ne_nil (s : String) : segs s ≠ [] := by
  have := segsList_ne_nil s.data
  simp [segs]
  intro h
  exact this h

theorem findEntry_setEntry (l : List (String × Node)) (k x : String) (v : Node) :
    findEntry (setEntry l k v) x = if x = k then some v else findEntry l x := by
  induction l with
  | nil =>
    by_cases h : x = k
    · subst h; simp [setEntry, findEntry]
    · simp [setEntry, findEntry, h, Ne.symm h]
  | cons kv rest ih =>
    by_cases h1 : kv.1 = k
    · by_cases h2 : x = k
      · subst h2; simp [setEntry, findEntry, h1]
      · have h3 : kv.1 ≠ x := by rw [h1]; exact Ne.symm h2
        simp [setEntry, findEntry, h1, h2, Ne.symm h2, h3]
    · by_cases h2 : kv.1 = x
      · have h3 : ¬ x = k := fun hxk => h1 (by rw [h2, hxk])
        simp [setEntry, findEntry, h1, h2, h3]
      · simp [setEntry, findEntry, h1, h2, ih]

theorem setChild_childNodes (t : Node) (k : String) (v : Node) :
    (setChild t k v).childNodes = setEntry t.childNodes k v := by
  cases t; rfl

theorem setChild_isDir (t : Node) (k : String) (v : Node) :
    (setChild t k v).isDir = t.isDir := by cases t; rfl

theorem setChild_md5Hash (t : Node) (k : String) (v : Node) :
    (setChild t k v).md5Hash = t.md5Hash := by cases t; rfl

theorem setChild_relativePath (t : Node) (k : String) (v : Node) :
    (setChild t k v).relativePath = t.relativePath := by cases t; rfl

theorem lookupChild_setChild (t : Node) (k x : String) (v : Node) :
    lookupChild (setChild t k v) x = if x = k then some v else lookupChild t x := by
  simp [lookupChild, setChild_childNodes, findEntry_setEntry]

theorem lookupChild_mk_nil (a : String) (b : Bool) (c r x : String) :
    lookupChild (Node.mk a b c r []) x = none := rfl

theorem addToRootNode_isDir (t : Node) (q : List String) (d : Bool) (m : String) :
    (addToRootNode t q d m).isDir = t.isDir := by
  match q with
  | [] => rfl
  | [p] => simp [addToRootNode, setChild_isDir]
  | p :: q' :: rest =>
    cases h : lookupChild t p <;> simp [addToRootNode, h, setChild_isDir]

theorem addToRootNode_md5Hash (t : Node) (q : List String) (d : Bool) (m : String) :
    (addToRootNode t q d m).md5Hash = t.md5Hash := by
  match q with
  | [] => rfl
  | [p] => simp [addToRootNode, setChild_md5Hash]
  | p :: q' :: rest =>
    cases h : lookupChild t p <;> simp [addToRootNode, h, setChild_md5Hash]

theorem addToRootNode_relativePath (t : Node) (q : List String) (d : Bool) (m : String) :
    (addToRootNode t q d m).relativePath = t.relativePath := by
  match q with
  | [] => rfl
  | [p] => simp [addToRootNode, setChild_relativePath]
  | p :: q' :: rest =>
    cases h : lookupChild t p <;> simp [addToRootNode, h, setChild_relativePath]

/-! ## Characterizing the lookup and the insertion -/

/-- `nodeExists` walks exactly to the node at the given path and checks
the type of the final node only: it returns the node at the path together
with the flag `node.isDir == isDir`, and `(false, none)` when no node
sits at the path. -/
theorem nodeExists_eq (t : Node) (p : List String) (b : Bool) (hp : p ≠ []) :
    nodeExists t p b =
      match getNodeAt t p with
      | some n => (n.isDir == b, some n)
      | none => (false, none) := by
  induction p generalizing t with
  | nil => exact absurd rfl hp
  | cons x xs ih =>
    cases xs with
    | nil =>
      cases h : lookupChild t x with
      | none => simp [nodeExists, getNodeAt, h]
      | some c => simp [nodeExists, getNodeAt, h]
    | cons y ys =>
      cases h : lookupChild t x with
      | none => simp [nodeExists, getNodeAt, h]
      | some c =>
        rw [show nodeExists t (x :: y :: ys) b = nodeExists c (y :: ys) b by
              simp [nodeExists, h],
            ih c (by simp)]
        simp [getNodeAt, h]

theorem nodeExists_of_get_some (t : Node) (p : List String) (b : Bool) (n : Node)
    (hp : p ≠ []) (h : getNodeAt t p = some n) :
    nodeExists t p b = (n.isDir == b, some n) := by
  rw [nodeExists_eq t p b hp, h]

theorem nodeExists_of_get_none (t : Node) (p : List String) (b : Bool)
    (hp : p ≠ []) (h : getNodeAt t p = none) :
    nodeExists t p b = (false, none) := by
  rw [nodeExists_eq t p b hp, h]

/-- Inserting a path writes a fresh node (with an empty child map and the
given type and digest) at exactly that path. -/
theorem getNodeAt_add_self (t : Node) (q : List String) (d : Bool) (m : String)
    (hq : q ≠ []) :
    ∃ n, getNodeAt (addToRootNode t q d m) q = some n ∧
      n.isDir = d ∧ n.md5Hash = m ∧ n.childNodes = [] := by
  induction q generalizing t with
  | nil => exact absurd rfl hq
  | cons x xs ih =>
    cases xs with
    | nil =>
      refine ⟨Node.mk x d m (childRel t x) [], ?_, rfl, rfl, rfl⟩
      simp [addToRootNode, getNodeAt, lookupChild_setChild]
    | cons y ys =>
      cases h : lookupChild t x with
      | some c =>
        obtain ⟨n, hn, h1, h2, h3⟩ := ih c (by simp)
        refine ⟨n, ?_, h1, h2, h3⟩
        simp only [addToRootNode, h, getNodeAt, lookupChild_setChild, if_pos]
        exact hn
      | none =>
        obtain ⟨n, hn, h1, h2, h3⟩ := ih (Node.mk x true "" (childRel t x) []) (by simp)
        refine ⟨n, ?_, h1, h2, h3⟩
        simp only [addToRootNode, h, getNodeAt, lookupChild_setChild, if_pos]
        exact hn

/-- Inserting a path `q` that is not an initial run of `p` preserves the
node sitting at `p` (its type, digest and relative path; its child map
may gain entries when `p` is an initial run of `q`). -/
theorem getNodeAt_add_other (t : Node) (p q : List String) (d : Bool) (m : String)
    (n : Node) (hq : q ≠ []) (hpre : leadSegs q p = false)
    (hn : getNodeAt t p = some n) :
    ∃ n', getNodeAt (addToRootNode t q d m) p = some n' ∧
      n'.isDir = n.isDir ∧ n'.md5Hash = n.md5Hash ∧
      n'.relativePath = n.relativePath := by
  induction q generalizing t p n with
  | nil => exact absurd rfl hq
  | cons y ys ih =>
    cases p with
    | nil =>
      have hnt : n = t := by simpa [getNodeAt] using hn.symm
      subst hnt
      exact ⟨addToRootNode n (y :: ys) d m, rfl, addToRootNode_isDir n _ d m,
        addToRootNode_md5Hash n _ d m, addToRootNode_relativePath n _ d m⟩
    | cons x xs =>
      cases ys with
      | nil =>
        have hyx : ¬ x = y := by
          simp [leadSegs] at hpre
          exact fun h => hpre (h.symm)
        cases hc : lookupChild t x with
        | none => simp [getNodeAt, hc] at hn
        | some c =>
          refine ⟨n, ?_, rfl, rfl, rfl⟩
          have : lookupChild (addToRootNode t [y] d m) x = some c := by
            simp [addToRootNode, lookupChild_setChild, hyx, hc]
          simp only [getNodeAt, this]
          simpa [getNodeAt, hc] using hn
      | cons y' ys' =>
        by_cases hxy : x = y
        · subst hxy
          have hpre' : leadSegs (y' :: ys') xs = false := by
            simpa [leadSegs] using hpre
          cases hc : lookupChild t x with
          | none => simp [getNodeAt, hc] at hn
          | some c =>
            have hn' : getNodeAt c xs = some n := by simpa [getNodeAt, hc] using hn
            obtain ⟨n', h1, h2, h3, h4⟩ := ih c xs n (by simp) hpre' hn'
            refine ⟨n', ?_, h2, h3, h4⟩
            have hl : lookupChild (addToRootNode t (x :: y' :: ys') d m) x =
                some (addToRootNode c (y' :: ys') d m) := by
              simp [addToRootNode, hc, lookupChild_setChild]
            simp only [getNodeAt, hl]
            exact h1
        · refine ⟨n, ?_, rfl, rfl, rfl⟩
          have hl : lookupChild (addToRootNode t (y :: y' :: ys') d m) x =
              lookupChild t x := by
            cases hc : lookupChild t y <;>
              simp [addToRootNode, hc, lookupChild_setChild, hxy]
          rw [show getNodeAt (addToRootNode t (y :: y' :: ys') d m) (x :: xs) =
                match lookupChild (addToRootNode t (y :: y' :: ys') d m) x with
                | some c => getNodeAt c xs
                | none => none from rfl, hl]
          simpa [getNodeAt] using hn

/-! ## The relative-path invariant maintained by addToRootNode -/

/-- The relative path the code assembles along a segment path: starting
from the root's path, each step appends `"/" ++ seg` unless the
accumulated path is still empty (exactly the branch in `addToRootNode`). -/
def joinPathFrom (r : String) (p : List String) : String :=
  p.foldl (fun acc s => if acc = "" then s else acc ++ "/" ++ s) r

theorem joinPathFrom_cons (r x : String) (p : List String) :
    joinPathFrom r (x :: p) = joinPathFrom (if r = "" then x else r ++ "/" ++ x) p :=
  rfl

theorem childRel_joinPathFrom (t : Node) (x : String) :
    childRel t x = joinPathFrom t.relativePath [x] := rfl

/-- The invariant: every node reachable from `t` carries the relative
path the insertion code would assemble for its position. -/
def relOK (t : Node) : Prop :=
  ∀ p n, getNodeAt t p = some n → n.relativePath = joinPathFrom t.relativePath p

theorem relOK_of_no_children (t : Node) (h : t.childNodes = []) : relOK t := by
  intro p n hp
  cases p with
  | nil =>
    have : n = t := by simpa [getNodeAt] using hp.symm
    simp [this, joinPathFrom]
  | cons x xs =>
    have : lookupChild t x = none := by simp [lookupChild, h, findEntry]
    simp [getNodeAt, this] at hp

theorem relOK_add (t : Node) (q : List String) (d : Bool) (m : String)
    (h : relOK t) : relOK (addToRootNode t q d m) := by
  induction q generalizing t with
  | nil => simpa [addToRootNode] using h
  | cons y ys ih =>
    cases ys with
    | nil =>
      intro p n hp
      rw [addToRootNode_relativePath]
      cases p with
      | nil =>
        have : n = addToRootNode t [y] d m := by simpa [getNodeAt] using hp.symm
        rw [this, joinPathFrom, List.foldl_nil, addToRootNode_relativePath]
      | cons x xs =>
        by_cases hxy : x = y
        · subst hxy
          have hl : lookupChild (addToRootNode t [x] d m) x =
              some (Node.mk x d m (childRel t x) []) := by
            simp [addToRootNode, lookupChild_setChild]
          cases xs with
          | nil =>
            have : n = Node.mk x d m (childRel t x) [] := by
              rw [getNodeAt, hl] at hp
              simpa [getNodeAt] using hp.symm
            rw [this]
            simp [Node.relativePath, joinPathFrom, childRel]
          | cons z zs =>
            rw [getNodeAt, hl] at hp
            simp [getNodeAt, lookupChild, Node.childNodes, findEntry] at hp
        · have hl : lookupChild (addToRootNode t [y] d m) x = lookupChild t x := by
            simp [addToRootNode, lookupChild_setChild, hxy]
          rw [getNodeAt, hl] at hp
          cases hc : lookupChild t x with
          | none => rw [hc] at hp; simp at hp
          | some c =>
            rw [hc] at hp
            exact h (x :: xs) n (by simp [getNodeAt, hc]; simpa using hp)
    | cons y' ys' =>
      have key : ∀ c : Node, lookupChild t y = some c ∨
          (lookupChild t y = none ∧ c = Node.mk y true "" (childRel t y) []) →
          relOK c → c.relativePath = childRel t y →
          relOK (setChild t y (addToRootNode c (y' :: ys') d m)) := by
        intro c _ hcOK hcrel p n hp
        rw [setChild_relativePath]
        cases p with
        | nil =>
          have : n = setChild t y (addToRootNode c (y' :: ys') d m) := by
            simpa [getNodeAt] using hp.symm
          rw [this, joinPathFrom, List.foldl_nil, setChild_relativePath]
        | cons x xs =>
          by_cases hxy : x = y
          · subst hxy
            rw [getNodeAt, lookupChild_setChild, if_pos rfl] at hp
            have := ih c hcOK xs n hp
            rw [this, addToRootNode_relativePath, hcrel,
              joinPathFrom_cons]
            rfl
          · rw [getNodeAt, lookupChild_setChild, if_neg hxy] at hp
            cases hc : lookupChild t x with
            | none => rw [hc] at hp; simp at hp
            | some cx =>
              rw [hc] at hp
              exact h (x :: xs) n (by simp [getNodeAt, hc]; simpa using hp)
      cases hc : lookupChild t y with
      | some c =>
        have hcrel : c.relativePath = childRel t y := by
          have := h [y] c (by simp [getNodeAt, hc])
          rw [this, childRel_joinPathFrom]
        have hcOK : relOK c := by
          intro p n hp
          have := h (y :: p) n (by simp [getNodeAt, hc, hp])
          rw [this, joinPathFrom_cons, hcrel, childRel]
        have := key c (Or.inl hc) hcOK hcrel
        simpa [addToRootNode, hc] using this
      | none =>
        have hcOK : relOK (Node.mk y true "" (childRel t y) []) :=
          relOK_of_no_children _ rfl
        have hcrel : (Node.mk y true "" (childRel t y) []).relativePath =
            childRel t y := rfl
        have := key (Node.mk y true "" (childRel t y) []) (Or.inr ⟨hc, rfl⟩) hcOK hcrel
        simpa [addToRootNode, hc] using this

/-! ## Lemmas about whole-archive tree building -/

theorem foldl_insStep_relativePath (l : List ZipEntry) (t : Node) :
    (l.foldl insStep t).relativePath = t.relativePath := by
  induction l generalizing t with
  | nil => rfl
  | cons e rest ih => rw [List.foldl_cons, ih, insStep, addToRootNode_relativePath]

theorem buildTree_relativePath (l : List ZipEntry) :
    (buildTree l).relativePath = "" :=
  foldl_insStep_relativePath l createNewNode

theorem relOK_foldl (l : List ZipEntry) (t : Node) (h : relOK t) :
    relOK (l.foldl insStep t) := by
  induction l generalizing t with
  | nil => exact h
  | cons e rest ih => exact ih _ (relOK_add _ _ _ _ h)

theorem relOK_buildTree (l : List ZipEntry) : relOK (buildTree l) :=
  relOK_foldl l createNewNode (relOK_of_no_children _ rfl)

/-- Every node of a built tree carries the relative path assembled along
its position. -/
theorem buildTree_node_rel (l : List ZipEntry) (p : List String) (n : Node)
    (h : getNodeAt (buildTree l) p = some n) :
    n.relativePath = joinPathFrom "" p := by
  have := relOK_buildTree l p n h
  rwa [buildTree_relativePath] at this

/-- Folding further insertions over a tree preserves a found node's type,
digest and relative path, as long as no later entry's segment path is an
initial run of the found path. -/
theorem foldl_insStep_preserves (l : List ZipEntry) (t : Node) (p : List String)
    (n : Node) (hl : ∀ b ∈ l, leadSegs (segsOf b) p = false)
    (hn : getNodeAt t p = some n) :
    ∃ n', getNodeAt (l.foldl insStep t) p = some n' ∧
      n'.isDir = n.isDir ∧ n'.md5Hash = n.md5Hash ∧
      n'.relativePath = n.relativePath := by
  induction l generalizing t n with
  | nil => exact ⟨n, hn, rfl, rfl, rfl⟩
  | cons e rest ih =>
    obtain ⟨n1, h1, h2, h3, h4⟩ :=
      getNodeAt_add_other t p (segsOf e) e.isDir e.md5Hash n
        (segs_ne_nil _) (hl e (List.mem_cons_self e rest)) hn
    obtain ⟨n', g1, g2, g3, g4⟩ :=
      ih (insStep t e) n1 (fun b hb => hl b (List.mem_cons_of_mem e hb)) h1
    exact ⟨n', g1, g2.trans h2, g3.trans h3, g4.trans h4⟩

/-- After building the tree, every entry whose segment path is not an
initial run of any later entry's segment path is found at its own path
with its own type and digest. -/
theorem buildTree_found (l1 l2 : List ZipEntry) (e : ZipEntry)
    (hl : ∀ b ∈ l2, leadSegs (segsOf b) (segsOf e) = false) :
    ∃ n, getNodeAt (buildTree (l1 ++ e :: l2)) (segsOf e) = some n ∧
      n.isDir = e.isDir ∧ n.md5Hash = e.md5Hash ∧
      n.relativePath = joinPathFrom "" (segsOf e) := by
  have hb : buildTree (l1 ++ e :: l2) =
      l2.foldl insStep (insStep (l1.foldl insStep createNewNode) e) := by
    simp [buildTree, List.foldl_append]
  obtain ⟨n0, h0, hd0, hm0, _⟩ :=
    getNodeAt_add_self (l1.foldl insStep createNewNode) (segsOf e)
      e.isDir e.md5Hash (segs_ne_nil _)
  obtain ⟨n, h1, h2, h3, _⟩ :=
    foldl_insStep_preserves l2 (insStep (l1.foldl insStep createNewNode) e)
      (segsOf e) n0 hl h0
  refine ⟨n, ?_, h2.trans hd0, h3.trans hm0, ?_⟩
  · rw [hb]; exact h1
  · exact buildTree_node_rel _ _ _ (by rw [hb]; exact h1)

/-- Inserting a path whose head differs from `x` leaves the root's child
at `x` unchanged. -/
theorem lookupChild_add_ne (t : Node) (q : List String) (d : Bool) (m : String)
    (x : String) (hx : q.head? ≠ some x) :
    lookupChild (addToRootNode t q d m) x = lookupChild t x := by
  match q with
  | [] => rfl
  | [p] =>
    have : ¬ x = p := fun h => hx (by simp [h])
    simp [addToRootNode, lookupChild_setChild, this]
  | p :: q' :: rest =>
    have : ¬ x = p := fun h => hx (by simp [h])
    cases hc : lookupChild t p <;>
      simp [addToRootNode, hc, lookupChild_setChild, this]

/-- A built tree has no child at `x` when no entry's segment path starts
with `x`. -/
theorem buildTree_no_child (l : List ZipEntry) (x : String)
    (hl : ∀ e ∈ l, (segsOf e).head? ≠ some x) :
    lookupChild (buildTree l) x = none := by
  suffices h : ∀ t, lookupChild t x = none → lookupChild (l.foldl insStep t) x = none by
    exact h createNewNode rfl
  induction l with
  | nil => intro t ht; exact ht
  | cons e rest ih =>
    intro t ht
    rw [List.foldl_cons]
    exact ih (fun b hb => hl b (List.mem_cons_of_mem e hb))
      (insStep t e)
      (by rw [insStep, lookupChild_add_ne _ _ _ _ x (hl e (List.mem_cons_self e rest))]; exact ht)

/-- Inserting any path preserves the presence of a root child. -/
theorem lookupChild_add_isSome (t : Node) (q : List String) (d : Bool) (m : String)
    (x : String) (hx : (lookupChild t x).isSome) :
    (lookupChild (addToRootNode t q d m) x).isSome := by
  match q with
  | [] => exact hx
  | [p] =>
    by_cases h : x = p <;> simp [addToRootNode, lookupChild_setChild, h, hx]
  | p :: q' :: rest =>
    by_cases h : x = p <;> cases hc : lookupChild t p <;>
      simp [addToRootNode, hc, lookupChild_setChild, h, hx]

/-- Inserting a path creates the root child named by its head. -/
theorem lookupChild_add_head (t : Node) (x : String) (q : List String)
    (d : Bool) (m : String) :
    (lookupChild (addToRootNode t (x :: q) d m) x).isSome := by
  match q with
  | [] => simp [addToRootNode, lookupChild_setChild]
  | q' :: rest =>
    cases hc : lookupChild t x <;>
      simp [addToRootNode, hc, lookupChild_setChild]

/-- `readZip` with no failing `file.Open()` succeeds and builds the fold
of `addToRootNode` over the entries. -/
theorem readZip_ok (l : List ZipEntry) (t : Node)
    (h : ∀ e ∈ l, e.openError = false) :
    readZip l t = Except.ok (l.foldl insStep t) := by
  induction l generalizing t with
  | nil => rfl
  | cons e rest ih =>
    rw [readZip, if_neg (by simp [h e (List.mem_cons_self e rest)]), List.foldl_cons]
    exact ih _ (fun b hb => h b (List.mem_cons_of_mem e hb))

/-! ## Well-formed entry sequences

A "distribution" in the spec's sense is a directory tree delivered as an
archive: no two entries name the same path, no entry's path is also used
as a directory of another entry, and paths do not start with a slash.
On the segment lists this reads: entry paths round-trip through the
path-assembly fold (no leading empty segment) and no entry's segment
path is an initial run of another's. -/

def relRound (e : ZipEntry) : Bool := joinPathFrom "" (segsOf e) == entryRel e

def pairNoLead (a b : ZipEntry) : Bool :=
  !leadSegs (segsOf a) (segsOf b) && !leadSegs (segsOf b) (segsOf a)

def noClash : List ZipEntry → Bool
  | [] => true
  | e :: rest => rest.all (pairNoLead e) && noClash rest

def wellFormed (l : List ZipEntry) : Bool := l.all relRound && noClash l

theorem wellFormed_relRound (l : List ZipEntry) (e : ZipEntry)
    (hw : wellFormed l = true) (he : e ∈ l) :
    joinPathFrom "" (segsOf e) = entryRel e := by
  have h1 : l.all relRound = true := by
    rw [wellFormed, Bool.and_eq_true] at hw
    exact hw.1
  rw [List.all_eq_true] at h1
  have := h1 e he
  rwa [relRound, beq_iff_eq] at this

theorem wellFormed_noClash (l : List ZipEntry) (hw : wellFormed l = true) :
    noClash l = true := by
  rw [wellFormed, Bool.and_eq_true] at hw
  exact hw.2

theorem noClash_decomp (l1 l2 : List ZipEntry) (e : ZipEntry)
    (h : noClash (l1 ++ e :: l2) = true) :
    ∀ b ∈ l2, pairNoLead e b = true := by
  induction l1 with
  | nil =>
    rw [List.nil_append, noClash, Bool.and_eq_true, List.all_eq_true] at h
    exact h.1
  | cons a l1' ih =>
    rw [List.cons_append, noClash, Bool.and_eq_true] at h
    exact ih h.2

theorem pairNoLead_false_left (a b : ZipEntry) (h : pairNoLead a b = true) :
    leadSegs (segsOf b) (segsOf a) = false := by
  simp only [pairNoLead, Bool.and_eq_true, Bool.not_eq_true'] at h
  exact h.2

theorem noClash_unique (l : List ZipEntry) (a b : ZipEntry)
    (h : noClash l = true) (ha : a ∈ l) (hb : b ∈ l)
    (hs : segsOf a = segsOf b) : a = b := by
  induction l with
  | nil => cases ha
  | cons e rest ih =>
    rw [noClash, Bool.and_eq_true, List.all_eq_true] at h
    rcases List.mem_cons.1 ha with rfl | ha' <;>
      rcases List.mem_cons.1 hb with rfl | hb'
    · rfl
    · have := pairNoLead_false_left a b (h.1 b hb')
      rw [← hs, leadSegs_refl] at this
      cases this
    · have := pairNoLead_false_left b a (h.1 a ha')
      rw [hs, leadSegs_refl] at this
      cases this
    · exact ih h.2 ha' hb'

/-- In a well-formed entry sequence, every entry is found in the built
tree at its own relative path, with its own type, digest, and with the
node's relative path equal to the entry's relative path. -/
theorem wellFormed_found (l : List ZipEntry) (e : ZipEntry)
    (hw : wellFormed l = true) (he : e ∈ l) :
    ∃ n, getNodeAt (buildTree l) (segsOf e) = some n ∧
      n.isDir = e.isDir ∧ n.md5Hash = e.md5Hash ∧
      n.relativePath = entryRel e := by
  obtain ⟨l1, l2, rfl⟩ := List.append_of_mem he
  have h2 : ∀ b ∈ l2, leadSegs (segsOf b) (segsOf e) = false := by
    intro b hb
    exact pairNoLead_false_left e b
      (noClash_decomp l1 l2 e (wellFormed_noClash _ hw) b hb)
  obtain ⟨n, h, hd, hm, hr⟩ := buildTree_found l1 l2 e h2
  exact ⟨n, h, hd, hm, by rw [hr, wellFormed_relRound _ e hw he]⟩

/-! ## Membership in the classification sets -/

/-- The modified-set component of the first classification loop. -/
def passModified (tree : Node) (entries : List ZipEntry) (acc : List String) :
    List String :=
  entries.foldl
    (fun a e =>
      if procEntry e then findModifiedFiles tree e.md5Hash (entryRel e) a else a)
    acc

/-- The missing-set component of a classification loop (removed files in
pass one, added files in pass two). -/
def passMissing (tree : Node) (entries : List ZipEntry) (acc : List String) :
    List String :=
  entries.foldl
    (fun a e =>
      if procEntry e then findNonExistentFiles tree (entryRel e) a else a)
    acc

theorem findModifiedAndRemoved_eq (tree : Node) (entries : List ZipEntry) :
    findModifiedAndRemoved tree entries =
      (passModified tree entries [], passMissing tree entries []) := by
  suffices h : ∀ acc : List String × List String,
      entries.foldl
        (fun acc e =>
          if procEntry e then
            (findModifiedFiles tree e.md5Hash (entryRel e) acc.1,
             findNonExistentFiles tree (entryRel e) acc.2)
          else acc) acc =
        (passModified tree entries acc.1, passMissing tree entries acc.2) from
    h ([], [])
  induction entries with
  | nil => intro acc; simp [passModified, passMissing]
  | cons e rest ih =>
    intro acc
    rw [List.foldl_cons]
    by_cases hpe : procEntry e
    · rw [if_pos hpe, ih]
      rw [show passModified tree (e :: rest) acc.1 =
            passModified tree rest (findModifiedFiles tree e.md5Hash (entryRel e) acc.1) by
          rw [passModified, passModified, List.foldl_cons, if_pos hpe],
        show passMissing tree (e :: rest) acc.2 =
            passMissing tree rest (findNonExistentFiles tree (entryRel e) acc.2) by
          rw [passMissing, passMissing, List.foldl_cons, if_pos hpe]]
    · rw [if_neg hpe, ih]
      rw [show passModified tree (e :: rest) acc.1 = passModified tree rest acc.1 by
          rw [passModified, passModified, List.foldl_cons, if_neg hpe],
        show passMissing tree (e :: rest) acc.2 = passMissing tree rest acc.2 by
          rw [passMissing, passMissing, List.foldl_cons, if_neg hpe]]

theorem findAddedFiles_eq (tree : Node) (entries : List ZipEntry) :
    findAddedFiles tree entries = passMissing tree entries [] := rfl

theorem insertSet_mem (s : List String) (x y : String) :
    y ∈ insertSet s x ↔ y ∈ s ∨ y = x := by
  by_cases h : x ∈ s
  · rw [insertSet, if_pos h]
    constructor
    · exact Or.inl
    · rintro (hy | rfl)
      · exact hy
      · exact h
  · rw [insertSet, if_neg h]
    simp [List.mem_append]

theorem findModifiedFiles_mem (root : Node) (md5 rel : String)
    (acc : List String) (x : String) :
    x ∈ findModifiedFiles root md5 rel acc ↔
      x ∈ acc ∨ ∃ n, pathExists root rel false = (true, some n) ∧
        n.md5Hash ≠ md5 ∧ x = n.relativePath := by
  rcases hpe : pathExists root rel false with ⟨found, node⟩
  cases found with
  | false => cases node <;> simp [findModifiedFiles, hpe]
  | true =>
    cases node with
    | none => simp [findModifiedFiles, hpe]
    | some n =>
      have hrhs : ∀ n' : Node,
          ((true, some n) : Bool × Option Node) = (true, some n') → n' = n := by
        intro n' h
        injection h with h1 h2
        injection h2 with h3
        exact h3.symm
      have hred : findModifiedFiles root md5 rel acc =
          if n.md5Hash ≠ md5 then insertSet acc n.relativePath else acc := by
        rw [findModifiedFiles, hpe]
      rw [hred]
      by_cases hm : n.md5Hash ≠ md5
      · rw [if_pos hm, insertSet_mem]
        constructor
        · rintro (hy | rfl)
          · exact Or.inl hy
          · exact Or.inr ⟨n, rfl, hm, rfl⟩
        · rintro (hy | ⟨n', hn', hm', hx⟩)
          · exact Or.inl hy
          · have := hrhs n' hn'
            subst this
            exact Or.inr hx
      · rw [if_neg hm]
        constructor
        · exact Or.inl
        · rintro (hy | ⟨n', hn', hm', hx⟩)
          · exact hy
          · have := hrhs n' hn'
            subst this
            exact absurd hm' hm

theorem findNonExistentFiles_mem (root : Node) (rel : String)
    (acc : List String) (x : String) :
    x ∈ findNonExistentFiles root rel acc ↔
      x ∈ acc ∨ ((pathExists root rel false).1 = false ∧ x = rel) := by
  by_cases h : (pathExists root rel false).1 = true
  · rw [findNonExistentFiles, if_pos h]
    constructor
    · exact Or.inl
    · rintro (hy | ⟨hf, _⟩)
      · exact hy
      · rw [h] at hf; cases hf
  · have hf : (pathExists root rel false).1 = false := by
      cases hb : (pathExists root rel false).1
      · rfl
      · exact absurd hb h
    rw [findNonExistentFiles, if_neg h, insertSet_mem]
    constructor
    · rintro (hy | rfl)
      · exact Or.inl hy
      · exact Or.inr ⟨hf, rfl⟩
    · rintro (hy | ⟨_, rfl⟩)
      · exact Or.inl hy
      · exact Or.inr rfl

theorem passModified_mem (tree : Node) (entries : List ZipEntry)
    (acc : List String) (x : String) :
    x ∈ passModified tree entries acc ↔
      x ∈ acc ∨ ∃ e, e ∈ entries ∧ procEntry e = true ∧
        ∃ n, pathExists tree (entryRel e) false = (true, some n) ∧
          n.md5Hash ≠ e.md5Hash ∧ x = n.relativePath := by
  induction entries generalizing acc with
  | nil => simp [passModified]
  | cons e rest ih =>
    by_cases hpe : procEntry e
    · rw [show passModified tree (e :: rest) acc =
          passModified tree rest (findModifiedFiles tree e.md5Hash (entryRel e) acc) by
            rw [passModified, passModified, List.foldl_cons, if_pos hpe],
        ih, findModifiedFiles_mem]
      constructor
      · rintro ((hy | ⟨n, h1, h2, h3⟩) | ⟨e', he', hp, n, h1, h2, h3⟩)
        · exact Or.inl hy
        · exact Or.inr ⟨e, List.mem_cons_self e rest, hpe, n, h1, h2, h3⟩
        · exact Or.inr ⟨e', List.mem_cons_of_mem e he', hp, n, h1, h2, h3⟩
      · rintro (hy | ⟨e', he', hp, n, h1, h2, h3⟩)
        · exact Or.inl (Or.inl hy)
        · rcases List.mem_cons.1 he' with rfl | he''
          · exact Or.inl (Or.inr ⟨n, h1, h2, h3⟩)
          · exact Or.inr ⟨e', he'', hp, n, h1, h2, h3⟩
    · rw [show passModified tree (e :: rest) acc = passModified tree rest acc by
            rw [passModified, passModified, List.foldl_cons, if_neg hpe],
        ih]
      constructor
      · rintro (hy | ⟨e', he', hp, n, h1, h2, h3⟩)
        · exact Or.inl hy
        · exact Or.inr ⟨e', List.mem_cons_of_mem e he', hp, n, h1, h2, h3⟩
      · rintro (hy | ⟨e', he', hp, n, h1, h2, h3⟩)
        · exact Or.inl hy
        · rcases List.mem_cons.1 he' with rfl | he''
          · exact absurd hp hpe
          · exact Or.inr ⟨e', he'', hp, n, h1, h2, h3⟩

theorem passMissing_mem (tree : Node) (entries : List ZipEntry)
    (acc : List String) (x : String) :
    x ∈ passMissing tree entries acc ↔
      x ∈ acc ∨ ∃ e, e ∈ entries ∧ procEntry e = true ∧
        (pathExists tree (entryRel e) false).1 = false ∧ x = entryRel e := by
  induction entries generalizing acc with
  | nil => simp [passMissing]
  | cons e rest ih =>
    by_cases hpe : procEntry e
    · rw [show passMissing tree (e :: rest) acc =
          passMissing tree rest (findNonExistentFiles tree (entryRel e) acc) by
            rw [passMissing, passMissing, List.foldl_cons, if_pos hpe],
        ih, findNonExistentFiles_mem]
      constructor
      · rintro ((hy | ⟨h1, h2⟩) | ⟨e', he', hp, h1, h2⟩)
        · exact Or.inl hy
        · exact Or.inr ⟨e, List.mem_cons_self e rest, hpe, h1, h2⟩
        · exact Or.inr ⟨e', List.mem_cons_of_mem e he', hp, h1, h2⟩
      · rintro (hy | ⟨e', he', hp, h1, h2⟩)
        · exact Or.inl (Or.inl hy)
        · rcases List.mem_cons.1 he' with rfl | he''
          · exact Or.inl (Or.inr ⟨h1, h2⟩)
          · exact Or.inr ⟨e', he'', hp, h1, h2⟩
    · rw [show passMissing tree (e :: rest) acc = passMissing tree rest acc by
            rw [passMissing, passMissing, List.foldl_cons, if_neg hpe],
        ih]
      constructor
      · rintro (hy | ⟨e', he', hp, h1, h2⟩)
        · exact Or.inl hy
        · exact Or.inr ⟨e', List.mem_cons_of_mem e he', hp, h1, h2⟩
      · rintro (hy | ⟨e', he', hp, h1, h2⟩)
        · exact Or.inl hy
        · rcases List.mem_cons.1 he' with rfl | he''
          · exact absurd hp hpe
          · exact Or.inr ⟨e', he'', hp, h1, h2⟩

/-! ## Claims -/

theorem getNodeAt_append (t : Node) (p r : List String) :
    getNodeAt t (p ++ r) = (getNodeAt t p).bind (fun n => getNodeAt n r) := by
  induction p generalizing t with
  | nil => simp [getNodeAt]
  | cons x xs ih =>
    cases h : lookupChild t x with
    | none => simp [getNodeAt, h]
    | some c => simp [getNodeAt, h, ih]

/-- C6: for every tree, segment path and expected type flag, the lookup
(`nodeExists`, wrapped by `pathExists`) reports found exactly when a node
sits at that segment-by-segment path and its isDir flag equals the
expected type; a node of the wrong type at the final segment makes the
lookup report not-found, so a directory never satisfies a file lookup
and vice versa. -/
theorem c6_node_lookup_type (t : Node) (p : List String) (b : Bool)
    (hp : p ≠ []) :
    (nodeExists t p b).1 = true ↔ ∃ n, getNodeAt t p = some n ∧ n.isDir = b := by
  rw [nodeExists_eq t p b hp]
  cases h : getNodeAt t p with
  | none => simp
  | some n => simp

theorem c6_node_lookup_type_witness :
    (nodeExists (buildTree [⟨"dist/a.txt", false, false, false, "h1"⟩])
      ["a.txt"] false).1 = true :=
  (c6_node_lookup_type (buildTree [⟨"dist/a.txt", false, false, false, "h1"⟩])
      ["a.txt"] false (by decide)).2
    ⟨Node.mk "a.txt" false "h1" "a.txt" [], rfl, rfl⟩

/-- C10: when `addToRootNode` inserts a path at which a node already
exists (a duplicate path in the entry sequence), the existing child is
replaced by a freshly created node with an empty child map, so every
subtree previously inserted beneath that path becomes unreachable from
the root: the insert overwrites rather than merges. -/
theorem c10_insert_overwrites (t : Node) (q : List String) (d : Bool)
    (m : String) (old : Node) (hq : q ≠ []) (_hold : getNodeAt t q = some old) :
    ∃ n, getNodeAt (addToRootNode t q d m) q = some n ∧
      n.isDir = d ∧ n.md5Hash = m ∧ n.childNodes = [] ∧
      ∀ r, r ≠ [] → getNodeAt (addToRootNode t q d m) (q ++ r) = none := by
  obtain ⟨n, h1, h2, h3, h4⟩ := getNodeAt_add_self t q d m hq
  refine ⟨n, h1, h2, h3, h4, ?_⟩
  intro r hr
  rw [getNodeAt_append, h1]
  cases r with
  | nil => exact absurd rfl hr
  | cons a as => simp [getNodeAt, lookupChild, h4, findEntry]

theorem c10_insert_overwrites_witness :
    ∃ n, getNodeAt
        (addToRootNode
          (buildTree [⟨"dist/plugins/x.jar", false, false, false, "h1"⟩])
          ["plugins"] true "") ["plugins"] = some n ∧
      n.isDir = true ∧ n.md5Hash = "" ∧ n.childNodes = [] ∧
      ∀ r, r ≠ [] → getNodeAt
        (addToRootNode
          (buildTree [⟨"dist/plugins/x.jar", false, false, false, "h1"⟩])
          ["plugins"] true "") (["plugins"] ++ r) = none :=
  c10_insert_overwrites
    (buildTree [⟨"dist/plugins/x.jar", false, false, false, "h1"⟩])
    ["plugins"] true "" (Node.mk "plugins" true "" "plugins"
      [("x.jar", Node.mk "x.jar" false "h1" "plugins/x.jar" [])])
    (by decide) rfl

/-- The digest recorded at a path of a tree-build result; `none` when the
build failed or no node sits at the path. -/
def md5At (r : Except String Node) (p : List String) : Option String :=
  match r with
  | .error _ => none
  | .ok t => (getNodeAt t p).map Node.md5Hash

/-- C4: the claim says a failing content read aborts the build; the code
only checks the `file.Open()` error and assigns the `ioutil.ReadAll`
error to `err` without ever checking it (`part_005` lines 373-375,
`part_009` lines 797-800).  An entry whose stream opens but whose bytes
cannot be read (readError set) still yields `Except.ok` and a tree node
hashed from the partial bytes. -/
theorem c4_readall_error_ignored :
    readZip [⟨"dist/", true, false, false, "d41d8cd9"⟩,
             ⟨"dist/conf/bad.xml", false, false, true, "deadbeef"⟩]
        createNewNode
      = Except.ok (buildTree [⟨"dist/", true, false, false, "d41d8cd9"⟩,
             ⟨"dist/conf/bad.xml", false, false, true, "deadbeef"⟩]) ∧
    md5At (readZip [⟨"dist/", true, false, false, "d41d8cd9"⟩,
             ⟨"dist/conf/bad.xml", false, false, true, "deadbeef"⟩]
        createNewNode) ["conf", "bad.xml"] = some "deadbeef" :=
  ⟨rfl, by decide⟩

theorem procEntry_eq (e : ZipEntry) (h : procEntry e = true) :
    entryRel e ≠ "" ∧ e.isDir = false := by
  rw [procEntry, Bool.and_eq_true] at h
  refine ⟨?_, ?_⟩
  · intro hrel
    rw [bne_iff_ne] at h
    exact h.1 hrel
  · simpa [Bool.not_eq_true'] using h.2

theorem procEntry_true_of (e : ZipEntry) (h1 : entryRel e ≠ "")
    (h2 : e.isDir = false) : procEntry e = true := by
  rw [procEntry, Bool.and_eq_true, bne_iff_ne, h2]
  exact ⟨h1, rfl⟩

theorem get_of_nodeExists (t : Node) (p : List String) (b : Bool) (n : Node)
    (hp : p ≠ []) (h : nodeExists t p b = (true, some n)) :
    getNodeAt t p = some n ∧ n.isDir = b := by
  rw [nodeExists_eq t p b hp] at h
  cases hg : getNodeAt t p with
  | none => rw [hg] at h; cases h
  | some n' =>
    rw [hg] at h
    injection h with h1 h2
    injection h2 with h3
    subst h3
    exact ⟨rfl, by simpa using h1⟩

/-- In a well-formed sequence, a file entry is found by `pathExists` in
the built tree as a file, with its digest and its relative path. -/
theorem wellFormed_pathExists (l : List ZipEntry) (e : ZipEntry)
    (hw : wellFormed l = true) (he : e ∈ l) (hf : e.isDir = false) :
    ∃ n, pathExists (buildTree l) (entryRel e) false = (true, some n) ∧
      n.md5Hash = e.md5Hash ∧ n.relativePath = entryRel e := by
  obtain ⟨n, h1, h2, h3, h4⟩ := wellFormed_found l e hw he
  refine ⟨n, ?_, h3, h4⟩
  rw [pathExists, nodeExists_of_get_some _ _ _ _ (segs_ne_nil _) h1, h2, hf]
  rfl

theorem classifyDiff_eq (upd prev : List ZipEntry) :
    classifyDiff upd prev =
      (passModified (buildTree upd) prev [],
       passMissing (buildTree upd) prev [],
       passMissing (buildTree prev) upd []) := by
  simp only [classifyDiff, findModifiedAndRemoved_eq, findAddedFiles_eq]

/-- C2 (amended): diffing a well-formed distribution (distinct entry
paths, no entry path used both as a file and as a directory of another
entry, no leading slash) against itself yields empty modified, removed
and added sets. -/
theorem c2_identity (entries : List ZipEntry)
    (hw : wellFormed entries = true) :
    classifyDiff entries entries = ([], [], []) := by
  have key : ∀ e ∈ entries, procEntry e = true →
      ∃ n, pathExists (buildTree entries) (entryRel e) false = (true, some n) ∧
        n.md5Hash = e.md5Hash := by
    intro e he hp
    obtain ⟨n, h1, h2, _⟩ :=
      wellFormed_pathExists entries e hw he (procEntry_eq e hp).2
    exact ⟨n, h1, h2⟩
  have hmod : passModified (buildTree entries) entries [] = [] := by
    rw [List.eq_nil_iff_forall_not_mem]
    intro x hx
    rw [passModified_mem] at hx
    rcases hx with hx | ⟨e, he, hp, n, h1, h2, _⟩
    · exact (List.not_mem_nil x) hx
    · obtain ⟨n', hn', hm'⟩ := key e he hp
      rw [h1] at hn'
      injection hn' with _ h5
      injection h5 with h6
      subst h6
      exact h2 hm'
  have hmiss : passMissing (buildTree entries) entries [] = [] := by
    rw [List.eq_nil_iff_forall_not_mem]
    intro x hx
    rw [passMissing_mem] at hx
    rcases hx with hx | ⟨e, he, hp, h1, _⟩
    · exact (List.not_mem_nil x) hx
    · obtain ⟨n', hn', _⟩ := key e he hp
      rw [hn'] at h1
      cases h1
  rw [classifyDiff_eq, hmod, hmiss]

theorem c2_identity_witness :
    wellFormed [⟨"dist/", true, false, false, "d0"⟩,
      ⟨"dist/conf/", true, false, false, "d0"⟩,
      ⟨"dist/conf/a.xml", false, false, false, "D1"⟩,
      ⟨"dist/lib/b.jar", false, false, false, "D2"⟩] = true ∧
    classifyDiff
      [⟨"dist/", true, false, false, "d0"⟩,
       ⟨"dist/conf/", true, false, false, "d0"⟩,
       ⟨"dist/conf/a.xml", false, false, false, "D1"⟩,
       ⟨"dist/lib/b.jar", false, false, false, "D2"⟩]
      [⟨"dist/", true, false, false, "d0"⟩,
       ⟨"dist/conf/", true, false, false, "d0"⟩,
       ⟨"dist/conf/a.xml", false, false, false, "D1"⟩,
       ⟨"dist/lib/b.jar", false, false, false, "D2"⟩] = ([], [], []) :=
  ⟨by decide, c2_identity _ (by decide)⟩

/-- C2 counterexample: with a malformed entry sequence (the path `a` is
used both as a file and as a directory of `a/b`; the later file insert at
`a` cuts off the subtree holding `a/b`), diffing the distribution against
itself reports `a/b` as removed, so the identity property fails on the
code as universally stated. -/
theorem c2_identity_cex :
    classifyDiff
      [⟨"d/a/b", false, false, false, "h"⟩, ⟨"d/a", false, false, false, "h2"⟩]
      [⟨"d/a/b", false, false, false, "h"⟩, ⟨"d/a", false, false, false, "h2"⟩]
      ≠ ([], [], []) := by decide

/-- A node returned by a successful file lookup in a built tree carries
exactly the looked-up relative path, provided that path round-trips
through the path assembly (it has no leading slash). -/
theorem lookup_node_rel (l : List ZipEntry) (rel : String) (n : Node)
    (hround : joinPathFrom "" (segs rel) = rel)
    (h : pathExists (buildTree l) rel false = (true, some n)) :
    n.relativePath = rel := by
  obtain ⟨hg, _⟩ := get_of_nodeExists _ _ _ _ (segs_ne_nil rel) h
  rw [buildTree_node_rel l (segs rel) n hg, hround]

/-- C1 (amended): for well-formed distributions, a relative path R
present as a file on both sides is classified as modified exactly when
the digests differ; with equal digests it lands in none of the modified,
removed or added sets. -/
theorem c1_modification_detection (updEntries prevEntries : List ZipEntry)
    (ep eu : ZipEntry) (R : String)
    (hwp : wellFormed prevEntries = true) (hwu : wellFormed updEntries = true)
    (hep : ep ∈ prevEntries) (heu : eu ∈ updEntries)
    (hepf : ep.isDir = false) (heuf : eu.isDir = false)
    (hepr : entryRel ep = R) (heur : entryRel eu = R) (hR : R ≠ "") :
    (ep.md5Hash ≠ eu.md5Hash → R ∈ (classifyDiff updEntries prevEntries).1) ∧
    (ep.md5Hash = eu.md5Hash →
      R ∉ (classifyDiff updEntries prevEntries).1 ∧
      R ∉ (classifyDiff updEntries prevEntries).2.1 ∧
      R ∉ (classifyDiff updEntries prevEntries).2.2) := by
  obtain ⟨nu, hnu, hmu, hru⟩ :=
    wellFormed_pathExists updEntries eu hwu heu heuf
  rw [heur] at hnu hru
  obtain ⟨np, hnp, _, _⟩ :=
    wellFormed_pathExists prevEntries ep hwp hep hepf
  rw [hepr] at hnp
  rw [classifyDiff_eq]
  constructor
  · intro hdiff
    rw [passModified_mem]
    refine Or.inr ⟨ep, hep, procEntry_true_of ep (hepr ▸ hR) hepf, nu, ?_, ?_, hru.symm⟩
    · rw [hepr]; exact hnu
    · rw [hmu]; exact fun h => hdiff h.symm
  · intro heq
    refine ⟨?_, ?_, ?_⟩
    · intro hx
      rw [passModified_mem] at hx
      rcases hx with hx | ⟨e, he, hp, n, h1, h2, h3⟩
      · exact (List.not_mem_nil R) hx
      · have hrel : n.relativePath = entryRel e :=
          lookup_node_rel updEntries (entryRel e) n
            (wellFormed_relRound prevEntries e hwp he) h1
        have heR : entryRel e = R := by rw [← hrel, ← h3]
        have hse : segsOf e = segsOf ep := by
          rw [segsOf, segsOf, heR, hepr]
        have : e = ep :=
          noClash_unique prevEntries e ep (wellFormed_noClash _ hwp) he hep hse
        subst this
        rw [heR] at h1
        rw [h1] at hnu
        injection hnu with _ h5
        injection h5 with h6
        subst h6
        rw [hmu, ← heq] at h2
        exact h2 rfl
    · intro hx
      rw [passMissing_mem] at hx
      rcases hx with hx | ⟨e, he, hp, h1, h2⟩
      · exact (List.not_mem_nil R) hx
      · rw [← h2, hnu] at h1
        cases h1
    · intro hx
      rw [passMissing_mem] at hx
      rcases hx with hx | ⟨e, he, hp, h1, h2⟩
      · exact (List.not_mem_nil R) hx
      · rw [← h2, hnp] at h1
        cases h1

theorem c1_modification_detection_witness :
    "conf/a.xml" ∈ (classifyDiff
      [⟨"dist/", true, false, false, "d0"⟩,
       ⟨"dist/conf/", true, false, false, "d0"⟩,
       ⟨"dist/conf/a.xml", false, false, false, "D2"⟩]
      [⟨"dist/", true, false, false, "d0"⟩,
       ⟨"dist/conf/", true, false, false, "d0"⟩,
       ⟨"dist/conf/a.xml", false, false, false, "D1"⟩]).1 :=
  (c1_modification_detection
    [⟨"dist/", true, false, false, "d0"⟩,
     ⟨"dist/conf/", true, false, false, "d0"⟩,
     ⟨"dist/conf/a.xml", false, false, false, "D2"⟩]
    [⟨"dist/", true, false, false, "d0"⟩,
     ⟨"dist/conf/", true, false, false, "d0"⟩,
     ⟨"dist/conf/a.xml", false, false, false, "D1"⟩]
    ⟨"dist/conf/a.xml", false, false, false, "D1"⟩
    ⟨"dist/conf/a.xml", false, false, false, "D2"⟩
    "conf/a.xml"
    (by decide) (by decide) (by decide) (by decide) (by decide) (by decide)
    (by decide) (by decide) (by decide)).1 (by decide)

/-- C1 counterexample: in the malformed distribution whose file entry `a`
arrives after the file entry `a/b`, the path `a/b` exists as a file with
identical digest `h` on both sides, yet one run of the classifier puts it
in the removed set (the later insert at `a` cut off the subtree), against
the claim that an identical-digest path lands in none of the sets. -/
theorem c1_modification_detection_cex :
    "a/b" ∈ (classifyDiff
      [⟨"d/a/b", false, false, false, "h"⟩, ⟨"d/a", false, false, false, "h2"⟩]
      [⟨"d/a/b", false, false, false, "h"⟩, ⟨"d/a", false, false, false, "h2"⟩]).2.1 := by
  decide

/-- C5 (amended): when the previous distribution's entry sequence is
well-formed, no path is both modified and removed, and no path is both
modified and added, in one run of the classifier. -/
theorem c5_disjointness (updEntries prevEntries : List ZipEntry)
    (hwp : wellFormed prevEntries = true) :
    (∀ x, x ∈ (classifyDiff updEntries prevEntries).1 →
      x ∉ (classifyDiff updEntries prevEntries).2.1) ∧
    (∀ x, x ∈ (classifyDiff updEntries prevEntries).1 →
      x ∉ (classifyDiff updEntries prevEntries).2.2) := by
  rw [classifyDiff_eq]
  have hmod : ∀ x, x ∈ passModified (buildTree updEntries) prevEntries [] →
      ∃ e, e ∈ prevEntries ∧ e.isDir = false ∧ x = entryRel e ∧
        (pathExists (buildTree updEntries) x false).1 = true := by
    intro x hx
    rw [passModified_mem] at hx
    rcases hx with hx | ⟨e, he, hp, n, h1, h2, h3⟩
    · exact absurd hx (List.not_mem_nil x)
    · have hrel : n.relativePath = entryRel e :=
        lookup_node_rel updEntries (entryRel e) n
          (wellFormed_relRound prevEntries e hwp he) h1
      refine ⟨e, he, (procEntry_eq e hp).2, by rw [h3, hrel], ?_⟩
      rw [h3, hrel, h1]
  refine ⟨?_, ?_⟩
  · intro x hx hr
    obtain ⟨e, he, hf, hxe, hfound⟩ := hmod x hx
    rw [passMissing_mem] at hr
    rcases hr with hr | ⟨e', he', hp', g1, g2⟩
    · exact (List.not_mem_nil x) hr
    · rw [← g2, hfound] at g1
      cases g1
  · intro x hx ha
    obtain ⟨e, he, hf, hxe, _⟩ := hmod x hx
    rw [passMissing_mem] at ha
    rcases ha with ha | ⟨e', he', hp', g1, g2⟩
    · exact (List.not_mem_nil x) ha
    · obtain ⟨np, hnp, _, _⟩ := wellFormed_pathExists prevEntries e hwp he hf
      rw [← g2, hxe, hnp] at g1
      cases g1

theorem c5_disjointness_witness :
    "lib/old.jar" ∉ (classifyDiff
      [⟨"dist/", true, false, false, "d0"⟩,
       ⟨"dist/lib/old.jar", false, false, false, "D3"⟩]
      [⟨"dist/", true, false, false, "d0"⟩,
       ⟨"dist/lib/old.jar", false, false, false, "D2"⟩]).2.1 :=
  (c5_disjointness
    [⟨"dist/", true, false, false, "d0"⟩,
     ⟨"dist/lib/old.jar", false, false, false, "D3"⟩]
    [⟨"dist/", true, false, false, "d0"⟩,
     ⟨"dist/lib/old.jar", false, false, false, "D2"⟩]
    (by decide)).1 "lib/old.jar" (by decide)

/-- C5 counterexample: with a previous entry whose relative path starts
with a slash (`d//x` gives relative path `/x`), the node found for `/x`
carries relative path `x`, which is simultaneously reported removed (the
plain `d/x` entry finds no node at `x`), so modified and removed
intersect on the code as universally stated. -/
theorem c5_disjointness_cex :
    "x" ∈ (classifyDiff [⟨"d//x", false, false, false, "h3"⟩]
      [⟨"d//x", false, false, false, "h1"⟩,
       ⟨"d/x", false, false, false, "h2"⟩]).1 ∧
    "x" ∈ (classifyDiff [⟨"d//x", false, false, false, "h3"⟩]
      [⟨"d//x", false, false, false, "h1"⟩,
       ⟨"d/x", false, false, false, "h2"⟩]).2.1 := by
  constructor <;> decide

theorem headSeg_head (s : String) : (segs s).head? = some (headSeg s) := by
  cases h : segs s with
  | nil => exact absurd h (segs_ne_nil s)
  | cons x rest => simp [headSeg, h]

/-- C3 (amended): the classifier performs no directory collapse and
produces no removed-directories set.  When the previous distribution
holds the files `pluginDir/a.jar` and `pluginDir/b.jar` and the updated
distribution has no entry under `pluginDir` at all, both file paths are
reported individually in the removed set (the only collapsing in the
code is the feature-root collapse applied later by
`modifyUpdateDescriptor`, and `pluginDir` is not under the feature
root). -/
theorem c3_no_directory_collapse (updEntries prevEntries : List ZipEntry)
    (ea eb : ZipEntry)
    (ha : ea ∈ prevEntries) (hb : eb ∈ prevEntries)
    (haf : ea.isDir = false) (hbf : eb.isDir = false)
    (har : entryRel ea = "pluginDir/a.jar")
    (hbr : entryRel eb = "pluginDir/b.jar")
    (hupd : ∀ e ∈ updEntries, headSeg (entryRel e) ≠ "pluginDir") :
    "pluginDir/a.jar" ∈ (classifyDiff updEntries prevEntries).2.1 ∧
    "pluginDir/b.jar" ∈ (classifyDiff updEntries prevEntries).2.1 := by
  have hnochild : lookupChild (buildTree updEntries) "pluginDir" = none := by
    refine buildTree_no_child updEntries "pluginDir" ?_
    intro e he hhd
    rw [segsOf, headSeg_head] at hhd
    injection hhd with hhd
    exact hupd e he hhd
  have hfa : (pathExists (buildTree updEntries) "pluginDir/a.jar" false).1 = false := by
    rw [pathExists, show segs "pluginDir/a.jar" = ["pluginDir", "a.jar"] from by decide,
      nodeExists_of_get_none _ _ _ (by decide) (by simp [getNodeAt, hnochild])]
  have hfb : (pathExists (buildTree updEntries) "pluginDir/b.jar" false).1 = false := by
    rw [pathExists, show segs "pluginDir/b.jar" = ["pluginDir", "b.jar"] from by decide,
      nodeExists_of_get_none _ _ _ (by decide) (by simp [getNodeAt, hnochild])]
  rw [classifyDiff_eq]
  constructor
  · rw [passMissing_mem]
    exact Or.inr ⟨ea, ha,
      procEntry_true_of ea (by rw [har]; decide) haf,
      by rw [har]; exact hfa, har.symm⟩
  · rw [passMissing_mem]
    exact Or.inr ⟨eb, hb,
      procEntry_true_of eb (by rw [hbr]; decide) hbf,
      by rw [hbr]; exact hfb, hbr.symm⟩

theorem c3_no_directory_collapse_witness :
    "pluginDir/a.jar" ∈ (classifyDiff
      [⟨"dist/", true, false, false, "d0"⟩,
       ⟨"dist/other.txt", false, false, false, "h0"⟩]
      [⟨"dist/", true, false, false, "d0"⟩,
       ⟨"dist/pluginDir/", true, false, false, "d0"⟩,
       ⟨"dist/pluginDir/a.jar", false, false, false, "ha"⟩,
       ⟨"dist/pluginDir/b.jar", false, false, false, "hb"⟩]).2.1 ∧
    "pluginDir/b.jar" ∈ (classifyDiff
      [⟨"dist/", true, false, false, "d0"⟩,
       ⟨"dist/other.txt", false, false, false, "h0"⟩]
      [⟨"dist/", true, false, false, "d0"⟩,
       ⟨"dist/pluginDir/", true, false, false, "d0"⟩,
       ⟨"dist/pluginDir/a.jar", false, false, false, "ha"⟩,
       ⟨"dist/pluginDir/b.jar", false, false, false, "hb"⟩]).2.1 :=
  c3_no_directory_collapse
    [⟨"dist/", true, false, false, "d0"⟩,
     ⟨"dist/other.txt", false, false, false, "h0"⟩]
    [⟨"dist/", true, false, false, "d0"⟩,
     ⟨"dist/pluginDir/", true, false, false, "d0"⟩,
     ⟨"dist/pluginDir/a.jar", false, false, false, "ha"⟩,
     ⟨"dist/pluginDir/b.jar", false, false, false, "hb"⟩]
    ⟨"dist/pluginDir/a.jar", false, false, false, "ha"⟩
    ⟨"dist/pluginDir/b.jar", false, false, false, "hb"⟩
    (by decide) (by decide) (by decide) (by decide) (by decide) (by decide)
    (by decide)

/-- C3 counterexample: on the spec's own scenario the removed set
contains `pluginDir/a.jar`, while the claim states `removedFiles`
contains neither jar (and that a `removedDirectories` set holds
`pluginDir`; no such set exists anywhere in the code). -/
theorem c3_no_directory_collapse_cex :
    "pluginDir/a.jar" ∈ (classifyDiff
      [⟨"dist/", true, false, false, "d0"⟩,
       ⟨"dist/other.txt", false, false, false, "h0"⟩]
      [⟨"dist/", true, false, false, "d0"⟩,
       ⟨"dist/pluginDir/", true, false, false, "d0"⟩,
       ⟨"dist/pluginDir/a.jar", false, false, false, "ha"⟩,
       ⟨"dist/pluginDir/b.jar", false, false, false, "hb"⟩]).2.1 ∧
    ¬ ("pluginDir/a.jar" ∉ (classifyDiff
      [⟨"dist/", true, false, false, "d0"⟩,
       ⟨"dist/other.txt", false, false, false, "h0"⟩]
      [⟨"dist/", true, false, false, "d0"⟩,
       ⟨"dist/pluginDir/", true, false, false, "d0"⟩,
       ⟨"dist/pluginDir/a.jar", false, false, false, "ha"⟩,
       ⟨"dist/pluginDir/b.jar", false, false, false, "hb"⟩]).2.1) := by
  constructor <;> decide

theorem append_slash_ne_empty (a s : String) : a ++ "/" ++ s ≠ "" := by
  intro h
  have := congrArg String.data h
  simp [String.data_append] at this

theorem joinPathFrom_acc (l : List String) : ∀ acc : String, acc ≠ "" →
    joinPathFrom acc l = joinSegs (acc :: l) := by
  induction l with
  | nil => intro acc _; rfl
  | cons s rest ih =>
    intro acc hacc
    rw [joinPathFrom_cons, if_neg hacc, ih (acc ++ "/" ++ s) (append_slash_ne_empty acc s)]
    cases rest with
    | nil => rfl
    | cons r rs =>
      show acc ++ "/" ++ s ++ "/" ++ joinSegs (r :: rs) =
        acc ++ "/" ++ (s ++ "/" ++ joinSegs (r :: rs))
      simp [String.append_assoc]

theorem joinPathFrom_head_ne (x : String) (p : List String) (hx : x ≠ "") :
    joinPathFrom "" (x :: p) = joinSegs (x :: p) := by
  rw [joinPathFrom_cons, if_pos rfl]
  exact joinPathFrom_acc p x hx

/-- C7 (amended): after building a tree from any entry sequence with
`addToRootNode`, every node reachable at segment path P carries
relativePath equal to the accumulation `joinPathFrom "" P` the code
performs, and this equals P joined with slashes whenever P's first
segment is nonempty (entry paths not beginning with a slash); a leading
empty segment is silently dropped by the accumulation, which falsifies
the claim as literally stated. -/
theorem c7_relative_path_invariant :
    (∀ (entries : List ZipEntry) (P : List String) (n : Node),
      getNodeAt (buildTree entries) P = some n →
      n.relativePath = joinPathFrom "" P) ∧
    (∀ (x : String) (p : List String), x ≠ "" →
      joinPathFrom "" (x :: p) = joinSegs (x :: p)) :=
  ⟨buildTree_node_rel, joinPathFrom_head_ne⟩

theorem c7_relative_path_invariant_witness :
    (Node.mk "a.xml" false "D1" "conf/a.xml" []).relativePath
        = joinPathFrom "" ["conf", "a.xml"] ∧
    joinPathFrom "" ["conf", "a.xml"] = joinSegs ["conf", "a.xml"] :=
  ⟨c7_relative_path_invariant.1 [⟨"dist/conf/a.xml", false, false, false, "D1"⟩]
      ["conf", "a.xml"] (Node.mk "a.xml" false "D1" "conf/a.xml" []) rfl,
   c7_relative_path_invariant.2 "conf" ["a.xml"] (by decide)⟩

/-- C7 counterexample: the entry `d//x` has relative path `/x`, whose
segment path is `["", "x"]`; the node reachable at that path carries
relativePath `"x"`, not the slash-join `"/x"`. -/
theorem c7_relative_path_invariant_cex :
    (getNodeAt (buildTree [⟨"d//x", false, false, false, "h1"⟩]) ["", "x"]).map
        Node.relativePath = some "x" ∧
    joinSegs ["", "x"] = "/x" ∧ ("x" : String) ≠ "/x" :=
  ⟨by decide, by decide, by decide⟩

/-- C9 (amended): the tree builder's relative path is everything after
the first slash of the entry name (backslash-normalized) for names that
contain a slash, but an entry whose name contains no slash keeps its full
name as relative path (it is not assigned the empty path), and an entry
whose relative path is empty (the distribution's own root directory
entry) is not skipped: it contributes a node keyed by the empty string to
the root's child map. -/
theorem c9_relative_path_strip :
    (∀ (s x r1 : String) (rest : List String),
      segs s = x :: r1 :: rest → getRelativePath s = toSlash (joinSegs (r1 :: rest))) ∧
    (∀ s : String, segs s = [s] → getRelativePath s = toSlash s) ∧
    (∀ (entries : List ZipEntry) (e : ZipEntry), e ∈ entries →
      entryRel e = "" → (lookupChild (buildTree entries) "").isSome = true) := by
  refine ⟨?_, ?_, ?_⟩
  · intro s x r1 rest hs
    rw [getRelativePath, hs]
  · intro s hs
    rw [getRelativePath, hs]
  · intro entries e he hrel
    obtain ⟨l1, l2, rfl⟩ := List.append_of_mem he
    have hsegs : segsOf e = [""] := by
      rw [segsOf, hrel]; decide
    have h0 : (lookupChild (insStep (l1.foldl insStep createNewNode) e) "").isSome := by
      rw [insStep, hsegs]
      exact lookupChild_add_head _ "" [] e.isDir e.md5Hash
    have hmono : ∀ (l : List ZipEntry) (t : Node), (lookupChild t "").isSome →
        (lookupChild (l.foldl insStep t) "").isSome := by
      intro l
      induction l with
      | nil => intro t ht; exact ht
      | cons b rest ih =>
        intro t ht
        exact ih _ (lookupChild_add_isSome _ _ _ _ _ ht)
    rw [show buildTree (l1 ++ e :: l2) =
        l2.foldl insStep (insStep (l1.foldl insStep createNewNode) e) by
      simp [buildTree, List.foldl_append]]
    exact hmono l2 _ h0

theorem c9_relative_path_strip_witness :
    getRelativePath "wso2am/repository/conf/axis2.xml" = toSlash (joinSegs
      ["repository", "conf", "axis2.xml"]) ∧
    getRelativePath "README" = toSlash "README" ∧
    (lookupChild (buildTree [⟨"wso2am/", true, false, false, "d41d8"⟩]) "").isSome
      = true :=
  ⟨c9_relative_path_strip.1 "wso2am/repository/conf/axis2.xml" "wso2am"
      "repository" ["conf", "axis2.xml"] (by decide),
   c9_relative_path_strip.2.1 "README" (by decide),
   c9_relative_path_strip.2.2 [⟨"wso2am/", true, false, false, "d41d8"⟩]
      ⟨"wso2am/", true, false, false, "d41d8"⟩ (by decide) (by decide)⟩

/-- C9 counterexample: the slash-free entry name `README` is assigned
relative path `README`, not the empty path the claim states, and the
distribution-root entry `wso2am/` (empty relative path) does contribute
a node, keyed by the empty string, to the tree. -/
theorem c9_relative_path_strip_cex :
    getRelativePath "README" ≠ "" ∧
    (lookupChild (buildTree [⟨"wso2am/", true, false, false, "d41d8"⟩]) "").isSome
      = true :=
  ⟨by decide, by decide⟩

/-! ## Lemmas about the feature-root collapse in the descriptor mutator -/

theorem hasLeadChars_append (l m : List Char) : hasLeadChars l (l ++ m) = true := by
  induction l with
  | nil => rfl
  | cons c cs ih => simp [hasLeadChars, ih]

theorem strStarts_append (p x : String) : strStarts p (p ++ x) = true := by
  rw [strStarts, String.data_append]
  exact hasLeadChars_append p.data x.data

theorem strAppend_left_cancel (p a b : String) (h : p ++ a = p ++ b) : a = b := by
  have h1 := congrArg String.data h
  rw [String.data_append, String.data_append] at h1
  have h2 := List.append_cancel_left h1
  cases a
  cases b
  simp only at h2
  rw [h2]

theorem trimLead_append (p x : String) : trimLead p (p ++ x) = x := by
  rw [trimLead, if_pos (strStarts_append p x)]
  have hd : (p ++ x).data.drop p.data.length = x.data := by
    rw [String.data_append]
    exact List.drop_left p.data x.data
  rw [hd]

theorem headSeg_of_single (s : String) (h : segs s = [s]) : headSeg s = s := by
  rw [headSeg, h]

theorem segsList_head_no_slash (l x : List Char) (rest : List (List Char))
    (h : segsList l = x :: rest) : '/' ∉ x := by
  induction l generalizing x rest with
  | nil =>
    rw [segsList] at h
    injection h with h1 _
    subst h1
    simp
  | cons c cs ih =>
    by_cases hc : c = '/'
    · rw [segsList, if_pos hc] at h
      injection h with h1 _
      subst h1
      simp
    · rw [segsList, if_neg hc] at h
      cases hs : segsList cs with
      | nil => exact absurd hs (segsList_ne_nil cs)
      | cons s r =>
        rw [hs] at h
        injection h with h1 _
        subst h1
        intro hm
        rcases List.mem_cons.1 hm with heq | hm'
        · exact hc heq.symm
        · exact ih s r hs hm'

theorem noSlash_segsList (l : List Char) (h : '/' ∉ l) : segsList l = [l] := by
  induction l with
  | nil => rfl
  | cons c cs ih =>
    have hc : ¬ c = '/' := fun hcc => h (hcc ▸ List.mem_cons_self c cs)
    rw [segsList, if_neg hc, ih (fun hm => h (List.mem_cons_of_mem c hm))]

theorem headSeg_single (s : String) : segs (headSeg s) = [headSeg s] := by
  cases h : segsList s.data with
  | nil => exact absurd h (segsList_ne_nil s.data)
  | cons x rest =>
    have hx : headSeg s = ⟨x⟩ := by
      rw [headSeg, segs, h]
      simp
    rw [hx, segs, noSlash_segsList x (segsList_head_no_slash s.data x rest h)]
    rfl

theorem featureName_single (s : String) : segs (featureName s) = [featureName s] :=
  headSeg_single (trimLead featureRoot s)

theorem processRemoved_cons_feat_new (rf : String) (rest seen out : List String)
    (h1 : strStarts featureRoot rf = true) (h2 : featureName rf ∉ seen) :
    processRemoved (rf :: rest) seen out =
      processRemoved rest (seen ++ [featureName rf])
        (out ++ [featureRoot ++ featureName rf]) := by
  simp [processRemoved, h1, h2]

theorem processRemoved_cons_feat_seen (rf : String) (rest seen out : List String)
    (h1 : strStarts featureRoot rf = true) (h2 : featureName rf ∈ seen) :
    processRemoved (rf :: rest) seen out = processRemoved rest seen out := by
  simp [processRemoved, h1, h2]

theorem processRemoved_cons_plain (rf : String) (rest seen out : List String)
    (h1 : strStarts featureRoot rf = false) :
    processRemoved (rf :: rest) seen out = processRemoved rest seen (out ++ [rf]) := by
  simp [processRemoved, h1]

theorem processRemoved_mono (r : List String) : ∀ (seen out : List String)
    (x : String), x ∈ out → x ∈ (processRemoved r seen out).2 := by
  induction r with
  | nil => exact fun seen out x hx => hx
  | cons rf rest ih =>
    intro seen out x hx
    by_cases h1 : strStarts featureRoot rf = true
    · by_cases h2 : featureName rf ∈ seen
      · rw [processRemoved_cons_feat_seen rf rest seen out h1 h2]
        exact ih seen out x hx
      · rw [processRemoved_cons_feat_new rf rest seen out h1 h2]
        exact ih _ _ x (List.mem_append_left _ hx)
    · have h1' : strStarts featureRoot rf = false := by
        cases hb : strStarts featureRoot rf
        · rfl
        · exact absurd hb h1
      rw [processRemoved_cons_plain rf rest seen out h1']
      exact ih _ _ x (List.mem_append_left _ hx)

theorem processRemoved_feature_mem (r : List String) : ∀ (seen out : List String)
    (rf : String), rf ∈ r → strStarts featureRoot rf = true →
    featureName rf ∈ seen ∨
      featureRoot ++ featureName rf ∈ (processRemoved r seen out).2 := by
  induction r with
  | nil => intro seen out rf h _; cases h
  | cons h0 rest ih =>
    intro seen out rf hmem hrf
    rcases List.mem_cons.1 hmem with rfl | hmem'
    · by_cases h2 : featureName rf ∈ seen
      · exact Or.inl h2
      · rw [processRemoved_cons_feat_new rf rest seen out hrf h2]
        exact Or.inr (processRemoved_mono rest _ _ _
          (List.mem_append_right _ (List.mem_singleton.2 rfl)))
    · by_cases hh : strStarts featureRoot h0 = true
      · by_cases h2 : featureName h0 ∈ seen
        · rw [processRemoved_cons_feat_seen h0 rest seen out hh h2]
          exact ih seen out rf hmem' hrf
        · rw [processRemoved_cons_feat_new h0 rest seen out hh h2]
          rcases ih (seen ++ [featureName h0])
              (out ++ [featureRoot ++ featureName h0]) rf hmem' hrf with hseen | hout
          · rcases List.mem_append.1 hseen with hs | hs
            · exact Or.inl hs
            · have heq : featureName rf = featureName h0 := List.mem_singleton.1 hs
              refine Or.inr (processRemoved_mono rest _ _ _ ?_)
              rw [heq]
              exact List.mem_append_right _ (List.mem_singleton.2 rfl)
          · exact Or.inr hout
      · have hh' : strStarts featureRoot h0 = false := by
          cases hb : strStarts featureRoot h0
          · rfl
          · exact absurd hb hh
        rw [processRemoved_cons_plain h0 rest seen out hh']
        exact ih _ _ rf hmem' hrf

theorem processRemoved_count (nm : String) (r : List String) :
    ∀ (seen out : List String),
    List.count (featureRoot ++ nm) (processRemoved r seen out).2 ≤
      List.count (featureRoot ++ nm) out + (if nm ∈ seen then 0 else 1) := by
  induction r with
  | nil =>
    intro seen out
    have hpr : (processRemoved [] seen out).2 = out := rfl
    rw [hpr]
    split <;> omega
  | cons h0 rest ih =>
    intro seen out
    by_cases hh : strStarts featureRoot h0 = true
    · by_cases h2 : featureName h0 ∈ seen
      · rw [processRemoved_cons_feat_seen h0 rest seen out hh h2]
        exact ih seen out
      · rw [processRemoved_cons_feat_new h0 rest seen out hh h2]
        have hbound := ih (seen ++ [featureName h0])
          (out ++ [featureRoot ++ featureName h0])
        by_cases hfn : featureName h0 = nm
        · subst hfn
          have hc1 : List.count (featureRoot ++ featureName h0)
              (out ++ [featureRoot ++ featureName h0]) =
              List.count (featureRoot ++ featureName h0) out + 1 := by
            rw [List.count_append, List.count_singleton]
            simp
          have hc2 : featureName h0 ∈ seen ++ [featureName h0] :=
            List.mem_append_right _ (List.mem_singleton.2 rfl)
          rw [hc1, if_pos hc2] at hbound
          rw [if_neg h2]
          omega
        · have hc1 : List.count (featureRoot ++ nm)
              (out ++ [featureRoot ++ featureName h0]) =
              List.count (featureRoot ++ nm) out := by
            rw [List.count_append, List.count_singleton]
            have : ¬ featureRoot ++ featureName h0 = featureRoot ++ nm :=
              fun h => hfn (strAppend_left_cancel featureRoot _ _ h)
            simp [this]
          have hc2 : (nm ∈ seen ++ [featureName h0]) ↔ nm ∈ seen := by
            rw [List.mem_append, List.mem_singleton]
            constructor
            · rintro (hs | hs)
              · exact hs
              · exact absurd hs.symm hfn
            · exact Or.inl
          rw [hc1] at hbound
          by_cases hns : nm ∈ seen
          · rw [if_pos (hc2.2 hns)] at hbound
            rw [if_pos hns]
            omega
          · rw [if_neg (fun hx => hns (hc2.1 hx))] at hbound
            rw [if_neg hns]
            omega
    · have hh' : strStarts featureRoot h0 = false := by
        cases hb : strStarts featureRoot h0
        · rfl
        · exact absurd hb hh
      rw [processRemoved_cons_plain h0 rest seen out hh']
      have hbound := ih seen (out ++ [h0])
      have hc1 : List.count (featureRoot ++ nm) (out ++ [h0]) =
          List.count (featureRoot ++ nm) out := by
        rw [List.count_append, List.count_singleton]
        have : ¬ h0 = featureRoot ++ nm := by
          intro h
          rw [h, strStarts_append] at hh'
          cases hh'
        simp [this]
      rw [hc1] at hbound
      exact hbound

theorem processRemoved_plain_mem (r : List String) : ∀ (seen out : List String)
    (rf : String), rf ∈ r → strStarts featureRoot rf = false →
    rf ∈ (processRemoved r seen out).2 := by
  induction r with
  | nil => intro seen out rf h _; cases h
  | cons h0 rest ih =>
    intro seen out rf hmem hrf
    rcases List.mem_cons.1 hmem with rfl | hmem'
    · rw [processRemoved_cons_plain rf rest seen out hrf]
      exact processRemoved_mono rest _ _ _
        (List.mem_append_right _ (List.mem_singleton.2 rfl))
    · by_cases hh : strStarts featureRoot h0 = true
      · by_cases h2 : featureName h0 ∈ seen
        · rw [processRemoved_cons_feat_seen h0 rest seen out hh h2]
          exact ih seen out rf hmem' hrf
        · rw [processRemoved_cons_feat_new h0 rest seen out hh h2]
          exact ih _ _ rf hmem' hrf
      · have hh' : strStarts featureRoot h0 = false := by
          cases hb : strStarts featureRoot h0
          · rfl
          · exact absurd hb hh
        rw [processRemoved_cons_plain h0 rest seen out hh']
        exact ih _ _ rf hmem' hrf

theorem processRemoved_not_mem (r : List String) : ∀ (seen out : List String)
    (rf : String), rf ∉ out → strStarts featureRoot rf = true →
    (∀ x : String, segs x = [x] → rf ≠ featureRoot ++ x) →
    rf ∉ (processRemoved r seen out).2 := by
  induction r with
  | nil => intro seen out rf hout _ _; exact hout
  | cons h0 rest ih =>
    intro seen out rf hout hrf hnx
    by_cases hh : strStarts featureRoot h0 = true
    · by_cases h2 : featureName h0 ∈ seen
      · rw [processRemoved_cons_feat_seen h0 rest seen out hh h2]
        exact ih seen out rf hout hrf hnx
      · rw [processRemoved_cons_feat_new h0 rest seen out hh h2]
        refine ih _ _ rf ?_ hrf hnx
        intro hmem
        rcases List.mem_append.1 hmem with hm | hm
        · exact hout hm
        · exact hnx (featureName h0) (featureName_single h0) (List.mem_singleton.1 hm)
    · have hh' : strStarts featureRoot h0 = false := by
        cases hb : strStarts featureRoot h0
        · rfl
        · exact absurd hb hh
      rw [processRemoved_cons_plain h0 rest seen out hh']
      refine ih _ _ rf ?_ hrf hnx
      intro hmem
      rcases List.mem_append.1 hmem with hm | hm
      · exact hout hm
      · have heq : rf = h0 := List.mem_singleton.1 hm
        rw [← heq] at hh'
        rw [hrf] at hh'
        cases hh'

/-- C8: for every removed-files set handed to the descriptor mutator, the
removed paths are appended after the descriptor's existing removed list;
each removed path under the features root contributes only the single
entry `featureRoot ++ featureName` (the raw path itself is never
appended, unless it is exactly the feature-root entry), appended at most
once per feature name no matter how many removed files share the feature;
removed paths outside the prefix are appended unchanged. -/
theorem c8_feature_root_collapse (m r a : List String) (ud : UpdateDescriptor) :
    (modifyUpdateDescriptor m r a ud).file_changes.removed_files
      = ud.file_changes.removed_files ++ (processRemoved r [] []).2 ∧
    (∀ rf ∈ r, strStarts featureRoot rf = true →
      featureRoot ++ featureName rf ∈ (processRemoved r [] []).2) ∧
    (∀ nm : String,
      List.count (featureRoot ++ nm) (processRemoved r [] []).2 ≤ 1) ∧
    (∀ rf ∈ r, strStarts featureRoot rf = false →
      rf ∈ (processRemoved r [] []).2) ∧
    (∀ rf ∈ r, strStarts featureRoot rf = true →
      rf ≠ featureRoot ++ featureName rf →
      rf ∉ (processRemoved r [] []).2) := by
  refine ⟨rfl, ?_, ?_, ?_, ?_⟩
  · intro rf hmem hrf
    rcases processRemoved_feature_mem r [] [] rf hmem hrf with hs | ho
    · exact absurd hs (List.not_mem_nil _)
    · exact ho
  · intro nm
    have h := processRemoved_count nm r [] []
    simpa using h
  · intro rf hmem hrf
    exact processRemoved_plain_mem r [] [] rf hmem hrf
  · intro rf hmem hrf hne
    refine processRemoved_not_mem r [] [] rf (List.not_mem_nil rf) hrf ?_
    intro x hx heq
    apply hne
    have hfx : featureName rf = x := by
      rw [featureName, heq, trimLead_append, headSeg_of_single x hx]
    rw [hfx]
    exact heq

theorem c8_feature_root_collapse_witness :
    featureRoot ++ featureName "wso2/lib/features/org.wso2.foo_1.0.0/a.jar" ∈
      (processRemoved ["wso2/lib/features/org.wso2.foo_1.0.0/a.jar",
        "wso2/lib/features/org.wso2.foo_1.0.0/lib/b.jar",
        "repository/conf/axis2.xml"] [] []).2 ∧
    List.count (featureRoot ++ "org.wso2.foo_1.0.0")
      (processRemoved ["wso2/lib/features/org.wso2.foo_1.0.0/a.jar",
        "wso2/lib/features/org.wso2.foo_1.0.0/lib/b.jar",
        "repository/conf/axis2.xml"] [] []).2 ≤ 1 ∧
    "repository/conf/axis2.xml" ∈
      (processRemoved ["wso2/lib/features/org.wso2.foo_1.0.0/a.jar",
        "wso2/lib/features/org.wso2.foo_1.0.0/lib/b.jar",
        "repository/conf/axis2.xml"] [] []).2 ∧
    "wso2/lib/features/org.wso2.foo_1.0.0/a.jar" ∉
      (processRemoved ["wso2/lib/features/org.wso2.foo_1.0.0/a.jar",
        "wso2/lib/features/org.wso2.foo_1.0.0/lib/b.jar",
        "repository/conf/axis2.xml"] [] []).2 :=
  ⟨(c8_feature_root_collapse [] ["wso2/lib/features/org.wso2.foo_1.0.0/a.jar",
      "wso2/lib/features/org.wso2.foo_1.0.0/lib/b.jar",
      "repository/conf/axis2.xml"] [] ⟨"1", "4.4.0", ⟨[], [], []⟩⟩).2.1
    "wso2/lib/features/org.wso2.foo_1.0.0/a.jar" (by decide) (by decide),
   (c8_feature_root_collapse [] ["wso2/lib/features/org.wso2.foo_1.0.0/a.jar",
      "wso2/lib/features/org.wso2.foo_1.0.0/lib/b.jar",
      "repository/conf/axis2.xml"] [] ⟨"1", "4.4.0", ⟨[], [], []⟩⟩).2.2.1
    "org.wso2.foo_1.0.0",
   (c8_feature_root_collapse [] ["wso2/lib/features/org.wso2.foo_1.0.0/a.jar",
      "wso2/lib/features/org.wso2.foo_1.0.0/lib/b.jar",
      "repository/conf/axis2.xml"] [] ⟨"1", "4.4.0", ⟨[], [], []⟩⟩).2.2.2.1
    "repository/conf/axis2.xml" (by decide) (by decide),
   (c8_feature_root_collapse [] ["wso2/lib/features/org.wso2.foo_1.0.0/a.jar",
      "wso2/lib/features/org.wso2.foo_1.0.0/lib/b.jar",
      "repository/conf/axis2.xml"] [] ⟨"1", "4.4.0", ⟨[], [], []⟩⟩).2.2.2.2
    "wso2/lib/features/org.wso2.foo_1.0.0/a.jar" (by decide) (by decide) (by decide)⟩
